import Mathlib

/-!
# The bundler configuration of `webpack.config.js`

A shallow embedding of the configuration object exported by `webpack.config.js`,
together with the parts of the host environment that give its values a meaning:

* the ECMAScript regular expressions used as `test` / `exclude` conditions, as a small
  pattern syntax with a backtracking matcher (`RegExp.test`);
* Node's POSIX `path.resolve` and `path.join`, which compute the entry, the output
  directory and the dev-server static root from `__dirname`;
* the way the bundler selects the rules, and hence the loaders, for a resource path.

Paths and other strings that are inspected character by character are lists of
characters. Every character occurring in a pattern of the configuration is ASCII, so
matching on characters and matching on UTF-16 code units agree.
-/

namespace WebpackConfig

/-! ## Regular expressions -/

/-- Pattern syntax: the fragment of ECMAScript patterns occurring in the configuration. -/
inductive Regex where
  /-- A pattern character, or an escaped one such as `\.`. -/
  | char : Char → Regex
  /-- Two terms one after the other. -/
  | seq : Regex → Regex → Regex
  /-- A disjunction `a|b`; the left alternative is tried first. -/
  | alt : Regex → Regex → Regex
  /-- The assertion `$` (no multiline flag): end of input. -/
  | eos : Regex
  /-- The empty alternative. -/
  | empty : Regex
  deriving Repr

/-- The terms of an alternative, in sequence. -/
def Regex.ofTerms : List Regex → Regex
  | [] => Regex.empty
  | [r] => r
  | r :: rs => Regex.seq r (Regex.ofTerms rs)

/-- The pattern characters of a literal run such as `node_modules`. -/
def Regex.lit (s : List Char) : Regex :=
  Regex.ofTerms (s.map Regex.char)

/-- Canonicalize of the ECMAScript matcher (no unicode flag): identity unless the
ignore-case flag is set; otherwise the upper-case form, except that a character outside
ASCII is never mapped into ASCII. The upper-case mapping used is the ASCII one; the
full mapping differs from it only on characters outside ASCII, and by the exception their
canonical form stays outside ASCII in both, so it never equals the canonical form of a
pattern character of this configuration. -/
def canonicalize (ignoreCase : Bool) (ch : Char) : Char :=
  if ignoreCase then
    let cu := ch.toUpper
    if 128 ≤ ch.toNat ∧ cu.toNat < 128 then ch else cu
  else ch

/-- All continuations: the inputs left over after the pattern matched a front part of
`s`, in the order in which backtracking tries them. -/
def Regex.matchAt (ignoreCase : Bool) : Regex → List Char → List (List Char)
  | Regex.char c, s =>
    match s with
    | [] => []
    | x :: xs => if canonicalize ignoreCase c = canonicalize ignoreCase x then [xs] else []
  | Regex.seq a b, s => (Regex.matchAt ignoreCase a s).flatMap (Regex.matchAt ignoreCase b)
  | Regex.alt a b, s => Regex.matchAt ignoreCase a s ++ Regex.matchAt ignoreCase b s
  | Regex.eos, s => if s = [] then [[]] else []
  | Regex.empty, s => [s]

/-- A regular expression object: a pattern and its `i` flag. -/
structure RegExp where
  pattern : Regex
  ignoreCase : Bool
  deriving Repr

/-- Search from a position: the pattern is tried at every start index from left to
right, including the end of the input. -/
def Regex.search (ignoreCase : Bool) (r : Regex) : List Char → Bool
  | [] => !(r.matchAt ignoreCase []).isEmpty
  | c :: cs => !(r.matchAt ignoreCase (c :: cs)).isEmpty || Regex.search ignoreCase r cs

/-- The method `RegExp.prototype.test` (no global or sticky flag). -/
def RegExp.test (re : RegExp) (s : List Char) : Bool :=
  re.pattern.search re.ignoreCase s

/-! ## Node's `path` module (POSIX) -/

/-- What `normalizeString` does when it reaches a separator: the segment just read is
dropped when empty or `.` (the cases `lastSlash === i - 1` and `dots === 1`); when it is
`..` (`dots === 2`) the previous kept segment is removed, unless there is none or it is
`..` itself, in which case `..` is appended if `allowAboveRoot`; any other segment is
appended. The kept segments (the pieces of `res` between separators) are held
last-first. -/
def pushSegment (allowAboveRoot : Bool) (res : List (List Char)) (seg : List Char) :
    List (List Char) :=
  if seg = [] ∨ seg = ['.'] then res
  else if seg = ['.', '.'] then
    match res with
    | [] => if allowAboveRoot then [['.', '.']] else []
    | last :: rest =>
      if last = ['.', '.'] then (if allowAboveRoot then seg :: last :: rest else last :: rest)
      else rest
  else seg :: res

/-- The scanning loop of `normalizeString`: state is the kept segments (last first) and
the characters of the segment being read (last first). -/
def normalizeStep (allowAboveRoot : Bool) (st : List (List Char) × List Char) (c : Char) :
    List (List Char) × List Char :=
  if c = '/' then (pushSegment allowAboveRoot st.1 st.2.reverse, [])
  else (st.1, c :: st.2)

/-- Join segments (given first-first) with `/`. -/
def joinSegments : List (List Char) → List Char
  | [] => []
  | [s] => s
  | s :: ss => s ++ '/' :: joinSegments ss

/-- The function `normalizeString(path, allowAboveRoot)`: the input is scanned with a
virtual trailing separator. -/
def normalizeString (path : List Char) (allowAboveRoot : Bool) : List Char :=
  let st := path.foldl (normalizeStep allowAboveRoot) ([], [])
  joinSegments (pushSegment allowAboveRoot st.1 st.2.reverse).reverse

/-- The predicate `path.isAbsolute`. -/
def isAbsolute (path : List Char) : Bool :=
  path.head? = some '/'

/-- The function `path.normalize`. -/
def normalize (path : List Char) : List Char :=
  if path = [] then ['.']
  else
    let trailingSeparator := path.getLast? = some '/'
    let p := normalizeString path (!isAbsolute path)
    if p = [] then
      if isAbsolute path then ['/'] else (if trailingSeparator then ['.', '/'] else ['.'])
    else
      let p := if trailingSeparator then p ++ ['/'] else p
      if isAbsolute path then '/' :: p else p

/-- The function `path.join`: empty arguments are skipped, the rest are joined with `/`
and normalized. -/
def join (args : List (List Char)) : List Char :=
  match args.filter (fun a => a ≠ []) with
  | [] => ['.']
  | parts => normalize (joinSegments parts)

/-- The right-to-left loop of `path.resolve` over the arguments followed by the working
directory: non-empty paths are prepended until one of them is absolute. The state is the
accumulated path and whether it is absolute. -/
def resolveLoop : List (List Char) → List Char × Bool → List Char × Bool
  | [], st => st
  | a :: rest, st =>
    if st.2 then st
    else if a = [] then resolveLoop rest st
    else resolveLoop rest (a ++ '/' :: st.1, isAbsolute a)

/-- The function `path.resolve`, with the working directory `cwd` of the process. -/
def resolve (cwd : List Char) (args : List (List Char)) : List Char :=
  let st := resolveLoop (args.reverse ++ [cwd]) ([], false)
  let resolvedPath := normalizeString st.1 (!st.2)
  if st.2 then '/' :: resolvedPath
  else if resolvedPath ≠ [] then resolvedPath else ['.']

/-! ## The configuration object -/

/-- An entry of a `use` property: a loader name given as a string, or an object with a
`loader` name and, possibly, `options`. -/
inductive Loader where
  | name : String → Loader
  | object : String → Option (List (String × Bool)) → Loader
  deriving DecidableEq, Repr

/-- The `use` property of a rule: absent, one loader object, or a list. -/
inductive Use where
  | absent : Use
  | single : Loader → Use
  | list : List Loader → Use
  deriving DecidableEq, Repr

/-- The loaders of a `use` property, in the order written. -/
def Use.chain : Use → List Loader
  | Use.absent => []
  | Use.single l => [l]
  | Use.list ls => ls

/-- A module rule. -/
structure Rule where
  test : RegExp
  exclude : Option RegExp
  use : Use
  type : Option String
  deriving Repr

/-- The `module` section. -/
structure ModuleSection where
  rules : List Rule
  deriving Repr

/-- The `resolve` section. -/
structure ResolveSection where
  extensions : List String
  deriving Repr

/-- The `output` section. -/
structure OutputSection where
  path : List Char
  filename : String
  deriving Repr

/-- The `devServer` section. -/
structure DevServerSection where
  static : List Char
  compress : Bool
  port : Nat
  deriving Repr

/-- A plugin instance: the constructor and the `extensions` option passed to it. -/
structure Plugin where
  ctor : String
  extensions : List String
  deriving DecidableEq, Repr

/-- The exported configuration. -/
structure Config where
  entry : List Char
  module : ModuleSection
  resolve : ResolveSection
  output : OutputSection
  devServer : DevServerSection
  plugins : List Plugin
  deriving Repr

/-- The pattern `/\.(js|jsx)$/`. The parentheses are a capture group; `test` reports
only whether a match exists, so the recorded text is not modelled. -/
def scriptTest : RegExp :=
  { pattern := Regex.ofTerms
      [Regex.char '.',
       Regex.alt (Regex.lit ['j', 's']) (Regex.lit ['j', 's', 'x']),
       Regex.eos],
    ignoreCase := false }

/-- The pattern `/node_modules/`. -/
def nodeModules : RegExp :=
  { pattern := Regex.lit "node_modules".toList, ignoreCase := false }

/-- The pattern `/\.css$/i`. -/
def cssTest : RegExp :=
  { pattern := Regex.ofTerms
      [Regex.char '.', Regex.char 'c', Regex.char 's', Regex.char 's', Regex.eos],
    ignoreCase := true }

/-- The pattern `/\.(jpg|png)$/`. -/
def imageTest : RegExp :=
  { pattern := Regex.ofTerms
      [Regex.char '.',
       Regex.alt (Regex.lit ['j', 'p', 'g']) (Regex.lit ['p', 'n', 'g']),
       Regex.eos],
    ignoreCase := false }

/-- The pattern `/\.(woff|woff2)$/`. -/
def fontTest : RegExp :=
  { pattern := Regex.ofTerms
      [Regex.char '.',
       Regex.alt (Regex.lit ['w', 'o', 'f', 'f']) (Regex.lit ['w', 'o', 'f', 'f', '2']),
       Regex.eos],
    ignoreCase := false }

/-- The rule for scripts (`rules[0]`). -/
def scriptRule : Rule :=
  { test := scriptTest,
    exclude := some nodeModules,
    use := Use.list [Loader.name "babel-loader", Loader.name "eslint-loader"],
    type := none }

/-- The rule for style sheets (`rules[1]`). -/
def cssRule : Rule :=
  { test := cssTest,
    exclude := some nodeModules,
    use := Use.list
      [Loader.name "style-loader", Loader.object "css-loader" (some [("modules", true)])],
    type := none }

/-- The rule for images (`rules[2]`). -/
def imageRule : Rule :=
  { test := imageTest,
    exclude := none,
    use := Use.single (Loader.object "url-loader" none),
    type := none }

/-- The rule for fonts (`rules[3]`). -/
def fontRule : Rule :=
  { test := fontTest,
    exclude := none,
    use := Use.absent,
    type := some "asset/resourse" }

/-- The object assigned to `module.exports`, for a module directory `dirname`
(`__dirname`) and a working directory `cwd`. -/
def config (cwd dirname : List Char) : Config :=
  { entry := resolve cwd [dirname, "./src/index.jsx".toList],
    module := { rules := [scriptRule, cssRule, imageRule, fontRule] },
    resolve := { extensions := ["*", ".js", ".jsx"] },
    output := { path := resolve cwd [dirname, "./dist".toList], filename := "bundle.js" },
    devServer := { static := join [dirname, "./dist".toList], compress := true, port := 3001 },
    plugins := [{ ctor := "ESLintPlugin", extensions := [".js", ".jsx"] }] }

/-! ## How the bundler reads the rules -/

/-- A rule applies to a resource when its `test` matches the path and its `exclude`,
if present, does not. -/
def Rule.applies (r : Rule) (p : List Char) : Bool :=
  r.test.test p && !(match r.exclude with
    | some e => e.test p
    | none => false)

/-- The loaders collected for a resource: the chains of all applying rules, in rule
order. -/
def loadersFor (rules : List Rule) (p : List Char) : List Loader :=
  (rules.filter (fun r => r.applies p)).flatMap (fun r => r.use.chain)

/-- The module types the bundler provides for assets. -/
def assetModuleTypes : List String :=
  ["asset", "asset/resource", "asset/inline", "asset/source"]

/-- The resolver tries a request without extension with each entry of
`resolve.extensions` appended, in list order. -/
def resolveCandidates (extensions : List String) (request : String) : List String :=
  extensions.map (fun e => request ++ e)

/-! ## Auxiliary notions used in the statements -/

/-- Ending in `w` when letter case is disregarded: some final part of `p` has `w` as its
lower-case form. -/
def EndsWithIgnoringCase (w p : List Char) : Prop :=
  ∃ t, t <:+ p ∧ t.map Char.toLower = w

/-- The segments kept after scanning all of `d`, last first. -/
def keptSegments (d : List Char) : List (List Char) :=
  let st := d.foldl (normalizeStep false) ([], [])
  pushSegment false st.1 st.2.reverse

/-! ## Facts about the matcher -/

theorem mem_matchAt_char (ic : Bool) (c : Char) (s rest : List Char) :
    rest ∈ Regex.matchAt ic (Regex.char c) s ↔
      ∃ x, s = x :: rest ∧ canonicalize ic c = canonicalize ic x := by
  cases s with
  | nil => simp [Regex.matchAt]
  | cons x xs =>
    simp only [Regex.matchAt, List.cons.injEq]
    constructor
    · intro h
      split at h
      · next hc => exact ⟨x, ⟨rfl, (List.mem_singleton.mp h).symm⟩, hc⟩
      · simp at h
    · rintro ⟨y, ⟨rfl, rfl⟩, hc⟩
      simp [hc]

theorem mem_matchAt_seq (ic : Bool) (a b : Regex) (s rest : List Char) :
    rest ∈ Regex.matchAt ic (Regex.seq a b) s ↔
      ∃ mid, mid ∈ Regex.matchAt ic a s ∧ rest ∈ Regex.matchAt ic b mid := by
  simp [Regex.matchAt, List.mem_flatMap]

theorem mem_matchAt_alt (ic : Bool) (a b : Regex) (s rest : List Char) :
    rest ∈ Regex.matchAt ic (Regex.alt a b) s ↔
      rest ∈ Regex.matchAt ic a s ∨ rest ∈ Regex.matchAt ic b s := by
  simp [Regex.matchAt]

theorem mem_matchAt_eos (ic : Bool) (s rest : List Char) :
    rest ∈ Regex.matchAt ic Regex.eos s ↔ s = [] ∧ rest = [] := by
  by_cases h : s = [] <;> simp [Regex.matchAt, h]

theorem mem_matchAt_empty (ic : Bool) (s rest : List Char) :
    rest ∈ Regex.matchAt ic Regex.empty s ↔ rest = s := by
  simp [Regex.matchAt]

/-- Searching succeeds exactly when the pattern matches at the start of some tail of the
input. -/
theorem search_iff (ic : Bool) (r : Regex) (s : List Char) :
    Regex.search ic r s = true ↔
      ∃ pre suf rest, s = pre ++ suf ∧ rest ∈ Regex.matchAt ic r suf := by
  induction s with
  | nil =>
    simp only [Regex.search, Bool.not_eq_true', List.isEmpty_eq_false]
    constructor
    · intro h
      obtain ⟨rest, hrest⟩ := List.exists_mem_of_ne_nil _ h
      exact ⟨[], [], rest, rfl, hrest⟩
    · rintro ⟨pre, suf, rest, h, hrest⟩
      obtain ⟨-, rfl⟩ := List.append_eq_nil.mp h.symm
      exact List.ne_nil_of_mem hrest
  | cons c cs ih =>
    simp only [Regex.search, Bool.or_eq_true, Bool.not_eq_true', List.isEmpty_eq_false, ih]
    constructor
    · rintro (h | ⟨pre, suf, rest, h, hrest⟩)
      · obtain ⟨rest, hrest⟩ := List.exists_mem_of_ne_nil _ h
        exact ⟨[], c :: cs, rest, rfl, hrest⟩
      · exact ⟨c :: pre, suf, rest, by simp [h], hrest⟩
    · rintro ⟨pre, suf, rest, h, hrest⟩
      cases pre with
      | nil =>
        left
        simp only [List.nil_append] at h
        subst h
        exact List.ne_nil_of_mem hrest
      | cons x pre =>
        right
        simp only [List.cons_append, List.cons.injEq] at h
        exact ⟨pre, suf, rest, h.2, hrest⟩

theorem canonicalize_false (a x : Char) :
    canonicalize false a = canonicalize false x ↔ x = a := by
  simp [canonicalize, eq_comm]

/-- A literal run, matched case-sensitively, consumes exactly its characters. -/
theorem mem_matchAt_lit (w s rest : List Char) :
    rest ∈ Regex.matchAt false (Regex.lit w) s ↔ s = w ++ rest := by
  induction w generalizing s with
  | nil => simp [Regex.lit, Regex.ofTerms, mem_matchAt_empty, eq_comm]
  | cons c cs ih =>
    cases cs with
    | nil =>
      simp only [Regex.lit, List.map, Regex.ofTerms, mem_matchAt_char, canonicalize_false]
      constructor
      · rintro ⟨x, rfl, rfl⟩; rfl
      · intro h; exact ⟨c, h, rfl⟩
    | cons c2 cs =>
      have ih2 : ∀ t, rest ∈ Regex.matchAt false (Regex.lit (c2 :: cs)) t ↔
          t = (c2 :: cs) ++ rest := fun t => ih t
      simp only [Regex.lit, List.map] at ih2
      simp only [Regex.lit, List.map, Regex.ofTerms, mem_matchAt_seq, mem_matchAt_char,
        canonicalize_false, ih2]
      constructor
      · rintro ⟨mid, ⟨x, rfl, rfl⟩, rfl⟩; rfl
      · intro h; exact ⟨(c2 :: cs) ++ rest, ⟨c, h, rfl⟩, rfl⟩

/-- The shape `\.(a|b)$`: accepted are the inputs ending in `.a` or in `.b`. -/
theorem search_dot_alt_eos (a b p : List Char) :
    Regex.search false
        (Regex.seq (Regex.char '.') (Regex.seq (Regex.alt (Regex.lit a) (Regex.lit b)) Regex.eos))
        p = true ↔
      (('.' :: a) <:+ p ∨ ('.' :: b) <:+ p) := by
  simp only [search_iff, mem_matchAt_seq, mem_matchAt_alt, mem_matchAt_char, mem_matchAt_eos,
    canonicalize_false, mem_matchAt_lit]
  constructor
  · rintro ⟨pre, suf, rest, rfl, mid, ⟨x, rfl, rfl⟩, mid2, h, rfl, rfl⟩
    rcases h with rfl | rfl
    · left; exact ⟨pre, by simp⟩
    · right; exact ⟨pre, by simp⟩
  · rintro (⟨pre, rfl⟩ | ⟨pre, rfl⟩)
    · exact ⟨pre, _, [], rfl, a, ⟨_, rfl, rfl⟩, [], Or.inl (by simp), rfl, rfl⟩
    · exact ⟨pre, _, [], rfl, b, ⟨_, rfl, rfl⟩, [], Or.inr (by simp), rfl, rfl⟩

/-- A literal pattern without anchors: accepted are the inputs containing the run. -/
theorem search_lit (w p : List Char) :
    Regex.search false (Regex.lit w) p = true ↔ w <:+: p := by
  simp only [search_iff, mem_matchAt_lit]
  constructor
  · rintro ⟨pre, suf, rest, rfl, rfl⟩
    exact ⟨pre, rest, by simp⟩
  · rintro ⟨pre, rest, rfl⟩
    exact ⟨pre, w ++ rest, rest, by simp, rfl⟩

theorem scriptTest_iff (p : List Char) :
    scriptTest.test p = true ↔ (".js".toList <:+ p ∨ ".jsx".toList <:+ p) :=
  search_dot_alt_eos ['j', 's'] ['j', 's', 'x'] p

theorem imageTest_iff (p : List Char) :
    imageTest.test p = true ↔ (".jpg".toList <:+ p ∨ ".png".toList <:+ p) :=
  search_dot_alt_eos ['j', 'p', 'g'] ['p', 'n', 'g'] p

theorem fontTest_iff (p : List Char) :
    fontTest.test p = true ↔ (".woff".toList <:+ p ∨ ".woff2".toList <:+ p) :=
  search_dot_alt_eos ['w', 'o', 'f', 'f'] ['w', 'o', 'f', 'f', '2'] p

theorem nodeModules_iff (p : List Char) :
    nodeModules.test p = true ↔ "node_modules".toList <:+: p :=
  search_lit "node_modules".toList p

set_option maxRecDepth 100000 in
/-- On ASCII input, comparing canonical forms with a pattern character of `\.css` is
comparing lower-case forms. -/
theorem canonicalize_ascii : ∀ n < 128, ∀ a ∈ ['.', 'c', 's'],
    (canonicalize true a = canonicalize true (Char.ofNat n) ↔ (Char.ofNat n).toLower = a) := by
  decide

/-- Under the `i` flag a pattern character of `\.css` matches exactly the characters
whose lower-case form it is. -/
theorem canonicalize_true_iff (a x : Char) (ha : a ∈ ['.', 'c', 's']) :
    canonicalize true a = canonicalize true x ↔ x.toLower = a := by
  by_cases hx : x.toNat < 128
  · have := canonicalize_ascii x.toNat hx a ha
    rwa [Char.ofNat_toNat] at this
  · have h1 : x.toUpper = x := by
      simp only [Char.toUpper]; rw [if_neg]; omega
    have h2 : x.toLower = x := by
      simp only [Char.toLower]; rw [if_neg]; omega
    have h3 : canonicalize true x = x := by
      simp [canonicalize, h1]
    rw [h3, h2]
    have h4 : (canonicalize true a).toNat < 128 ∧ a.toNat < 128 := by
      simp only [List.mem_cons, List.mem_singleton, List.not_mem_nil, or_false] at ha
      rcases ha with rfl | rfl | rfl <;> decide
    constructor
    · intro h; rw [h] at h4; omega
    · intro h; rw [h] at hx; omega

theorem cssTest_iff (p : List Char) :
    cssTest.test p = true ↔ EndsWithIgnoringCase ".css".toList p := by
  have hd := fun x => canonicalize_true_iff '.' x (by simp)
  have hc := fun x => canonicalize_true_iff 'c' x (by simp)
  have hs := fun x => canonicalize_true_iff 's' x (by simp)
  simp only [RegExp.test, cssTest, Regex.ofTerms, search_iff, mem_matchAt_seq,
    mem_matchAt_char, mem_matchAt_eos, hd, hc, hs, EndsWithIgnoringCase]
  constructor
  · rintro ⟨pre, suf, rest, rfl, m1, ⟨x1, rfl, h1⟩, m2, ⟨x2, rfl, h2⟩, m3, ⟨x3, rfl, h3⟩,
      m4, ⟨x4, rfl, h4⟩, rfl, rfl⟩
    exact ⟨[x1, x2, x3, x4], ⟨pre, rfl⟩, by simp [h1, h2, h3, h4]⟩
  · rintro ⟨t, ⟨pre, rfl⟩, ht⟩
    rcases t with _ | ⟨x1, _ | ⟨x2, _ | ⟨x3, _ | ⟨x4, _ | ⟨x5, t⟩⟩⟩⟩⟩ <;>
      simp only [List.map, String.toList, List.cons.injEq, and_true, reduceCtorEq,
        and_false] at ht
    obtain ⟨h1, h2, h3, h4⟩ := ht
    exact ⟨pre, _, [], rfl, _, ⟨x1, rfl, h1⟩, _, ⟨x2, rfl, h2⟩, _, ⟨x3, rfl, h3⟩,
      _, ⟨x4, rfl, h4⟩, rfl, rfl⟩

/-! ## Facts about path normalization -/

theorem normalizeString_dist_slash (d : List Char) :
    normalizeString (d ++ "/./dist/".toList) false =
      joinSegments ((keptSegments d).reverse ++ ["dist".toList]) := by
  simp [normalizeString, keptSegments, List.foldl_append, normalizeStep, pushSegment]

theorem normalizeString_dot_dist (d : List Char) :
    normalizeString (d ++ "/./dist".toList) false =
      joinSegments ((keptSegments d).reverse ++ ["dist".toList]) := by
  simp [normalizeString, keptSegments, List.foldl_append, normalizeStep, pushSegment]

theorem normalizeString_dist (d : List Char) :
    normalizeString (d ++ "/dist".toList) false =
      joinSegments ((keptSegments d).reverse ++ ["dist".toList]) := by
  simp [normalizeString, keptSegments, List.foldl_append, normalizeStep, pushSegment]

theorem normalizeString_dot_index_slash (d : List Char) :
    normalizeString (d ++ "/./src/index.jsx/".toList) false =
      joinSegments ((keptSegments d).reverse ++ ["src".toList, "index.jsx".toList]) := by
  simp [normalizeString, keptSegments, List.foldl_append, normalizeStep, pushSegment]

theorem normalizeString_index (d : List Char) :
    normalizeString (d ++ "/src/index.jsx".toList) false =
      joinSegments ((keptSegments d).reverse ++ ["src".toList, "index.jsx".toList]) := by
  simp [normalizeString, keptSegments, List.foldl_append, normalizeStep, pushSegment]

theorem joinSegments_append_singleton (xs : List (List Char)) (b : List Char) :
    joinSegments (xs ++ [b]) = if xs = [] then b else joinSegments xs ++ '/' :: b := by
  induction xs with
  | nil => simp [joinSegments]
  | cons x xs ih =>
    cases xs with
    | nil => simp [joinSegments]
    | cons y ys =>
      simp only [List.cons_append, reduceCtorEq, if_false] at ih ⊢
      rw [show joinSegments (x :: y :: (ys ++ [b])) = x ++ '/' :: joinSegments (y :: (ys ++ [b]))
        from rfl, ih]
      simp [joinSegments]

theorem suffix_joinSegments_append_singleton (xs : List (List Char)) (b : List Char) :
    b <:+ joinSegments (xs ++ [b]) := by
  rw [joinSegments_append_singleton]
  split
  · exact List.suffix_refl b
  · exact ⟨joinSegments xs ++ ['/'], by simp⟩

theorem joinSegments_append_singleton_ne_nil (xs : List (List Char)) (b : List Char)
    (hb : b ≠ []) : joinSegments (xs ++ [b]) ≠ [] := by
  intro h
  have := suffix_joinSegments_append_singleton xs b
  rw [h] at this
  exact hb (List.suffix_nil.mp this)

/-- Resolving a non-empty relative path against an absolute directory never consults the
working directory. -/
theorem resolve_absolute (cwd d x : List Char) (hd : isAbsolute d = true) (hx : x ≠ [])
    (hrel : isAbsolute x = false) :
    resolve cwd [d, x] = '/' :: normalizeString (d ++ '/' :: (x ++ ['/'])) false := by
  have hd0 : d ≠ [] := by
    rintro rfl
    simp [isAbsolute] at hd
  simp [resolve, resolveLoop, hx, hrel, hd0, hd]

/-- Joining an absolute directory with a non-empty path that does not end in a
separator. -/
theorem join_absolute (d x : List Char) (hd : isAbsolute d = true) (hx : x ≠ [])
    (hlast : x.getLast? ≠ some '/')
    (hne : normalizeString (d ++ '/' :: x) false ≠ []) :
    join [d, x] = '/' :: normalizeString (d ++ '/' :: x) false := by
  have hd0 : d ≠ [] := by
    rintro rfl
    simp [isAbsolute] at hd
  have habs : isAbsolute (d ++ '/' :: x) = true := by
    cases d with
    | nil => exact absurd rfl hd0
    | cons c cs => simpa [isAbsolute] using hd
  have hl : (d ++ '/' :: x).getLast? = x.getLast? := by
    cases x with
    | nil => exact absurd rfl hx
    | cons y ys =>
      rw [show d ++ '/' :: y :: ys = (d ++ ['/']) ++ (y :: ys) by simp]
      rw [List.getLast?_append_of_ne_nil _ (by simp)]
  simp [join, hx, hd0, joinSegments, normalize, habs, hl, hlast, hne]

/-! ## The path model on the examples of the Node documentation -/

theorem join_doc_example :
    join ["/foo".toList, "bar".toList, "baz/asdf".toList, "quux".toList, "..".toList] =
      "/foo/bar/baz/asdf".toList := by
  decide

theorem normalize_doc_example :
    normalize "/foo/bar//baz/asdf/quux/..".toList = "/foo/bar/baz/asdf".toList := by
  decide

theorem resolve_doc_example_relative :
    resolve "/home".toList ["/foo/bar".toList, "./baz".toList] = "/foo/bar/baz".toList := by
  decide

theorem resolve_doc_example_absolute :
    resolve "/home".toList ["/foo/bar".toList, "/tmp/file/".toList] = "/tmp/file".toList := by
  decide

theorem resolve_doc_example_cwd :
    resolve "/home/myself/node".toList
        ["wwwroot".toList, "static_files/png/".toList, "../gif/image.gif".toList] =
      "/home/myself/node/wwwroot/static_files/gif/image.gif".toList := by
  decide

/-! ## The matchers are pairwise disjoint -/

theorem suffix_iff_reverse (w p : List Char) :
    w <:+ p ↔ ∃ t, p.reverse = w.reverse ++ t := by
  rw [← List.reverse_prefix]
  constructor
  · rintro ⟨t, h⟩; exact ⟨t, h.symm⟩
  · rintro ⟨t, h⟩; exact ⟨t, h.symm⟩

theorem scriptTest_reverse (p : List Char) (h : scriptTest.test p = true) :
    ∃ t, p.reverse = 's' :: 'j' :: '.' :: t ∨ p.reverse = 'x' :: 's' :: 'j' :: '.' :: t := by
  rcases (scriptTest_iff p).mp h with h | h
  · obtain ⟨t, ht⟩ := (suffix_iff_reverse _ _).mp h
    exact ⟨t, Or.inl (by simpa using ht)⟩
  · obtain ⟨t, ht⟩ := (suffix_iff_reverse _ _).mp h
    exact ⟨t, Or.inr (by simpa using ht)⟩

theorem cssTest_reverse (p : List Char) (h : cssTest.test p = true) :
    ∃ x3 x4 t, p.reverse = x4 :: x3 :: t ∧ x3.toLower = 's' ∧ x4.toLower = 's' := by
  obtain ⟨u, hu, hmap⟩ := (cssTest_iff p).mp h
  rcases u with _ | ⟨x1, _ | ⟨x2, _ | ⟨x3, _ | ⟨x4, _ | ⟨x5, u⟩⟩⟩⟩⟩ <;>
    simp only [List.map, String.toList, List.cons.injEq, and_true, reduceCtorEq,
      and_false] at hmap
  obtain ⟨t, ht⟩ := (suffix_iff_reverse _ _).mp hu
  exact ⟨x3, x4, x2 :: x1 :: t, by simpa using ht, hmap.2.2.1, hmap.2.2.2⟩

theorem imageTest_reverse (p : List Char) (h : imageTest.test p = true) :
    ∃ t, p.reverse = 'g' :: t := by
  rcases (imageTest_iff p).mp h with h | h
  · obtain ⟨t, ht⟩ := (suffix_iff_reverse _ _).mp h
    exact ⟨'p' :: 'j' :: '.' :: t, by simpa using ht⟩
  · obtain ⟨t, ht⟩ := (suffix_iff_reverse _ _).mp h
    exact ⟨'n' :: 'p' :: '.' :: t, by simpa using ht⟩

theorem fontTest_reverse (p : List Char) (h : fontTest.test p = true) :
    ∃ t, p.reverse = 'f' :: t ∨ p.reverse = '2' :: t := by
  rcases (fontTest_iff p).mp h with h | h
  · obtain ⟨t, ht⟩ := (suffix_iff_reverse _ _).mp h
    exact ⟨'f' :: 'o' :: 'w' :: '.' :: t, Or.inl (by simpa using ht)⟩
  · obtain ⟨t, ht⟩ := (suffix_iff_reverse _ _).mp h
    exact ⟨'f' :: 'f' :: 'o' :: 'w' :: '.' :: t, Or.inr (by simpa using ht)⟩

theorem script_css_disjoint (p : List Char) (h1 : scriptTest.test p = true) :
    cssTest.test p = false := by
  by_contra h2
  obtain ⟨t, ht⟩ := scriptTest_reverse p h1
  obtain ⟨x3, x4, u, hu, h3, h4⟩ := cssTest_reverse p (by simpa using h2)
  rcases ht with ht | ht <;>
  · rw [ht] at hu
    simp only [List.cons.injEq] at hu
    obtain ⟨rfl, rfl, -⟩ := hu
    revert h3 h4
    decide

theorem script_image_disjoint (p : List Char) (h1 : scriptTest.test p = true) :
    imageTest.test p = false := by
  by_contra h2
  obtain ⟨t, ht⟩ := scriptTest_reverse p h1
  obtain ⟨u, hu⟩ := imageTest_reverse p (by simpa using h2)
  rcases ht with ht | ht <;> simp [ht] at hu

theorem script_font_disjoint (p : List Char) (h1 : scriptTest.test p = true) :
    fontTest.test p = false := by
  by_contra h2
  obtain ⟨t, ht⟩ := scriptTest_reverse p h1
  obtain ⟨u, hu⟩ := fontTest_reverse p (by simpa using h2)
  rcases ht with ht | ht <;> rcases hu with hu | hu <;> simp [ht] at hu

theorem css_image_disjoint (p : List Char) (h1 : cssTest.test p = true) :
    imageTest.test p = false := by
  by_contra h2
  obtain ⟨x3, x4, t, ht, h3, h4⟩ := cssTest_reverse p h1
  obtain ⟨u, hu⟩ := imageTest_reverse p (by simpa using h2)
  rw [ht] at hu
  simp only [List.cons.injEq] at hu
  obtain ⟨rfl, -⟩ := hu
  revert h4
  decide

theorem css_font_disjoint (p : List Char) (h1 : cssTest.test p = true) :
    fontTest.test p = false := by
  by_contra h2
  obtain ⟨x3, x4, t, ht, h3, h4⟩ := cssTest_reverse p h1
  obtain ⟨u, hu⟩ := fontTest_reverse p (by simpa using h2)
  rcases hu with hu | hu <;>
  · rw [ht] at hu
    simp only [List.cons.injEq] at hu
    obtain ⟨rfl, -⟩ := hu
    revert h4
    decide

theorem image_font_disjoint (p : List Char) (h1 : imageTest.test p = true) :
    fontTest.test p = false := by
  by_contra h2
  obtain ⟨t, ht⟩ := imageTest_reverse p h1
  obtain ⟨u, hu⟩ := fontTest_reverse p (by simpa using h2)
  rcases hu with hu | hu <;> simp [ht] at hu

/-- At most one of the four `test` conditions accepts a given path. -/
theorem tests_exclusive (p : List Char) :
    (scriptTest.test p = true → cssTest.test p = false ∧ imageTest.test p = false ∧
        fontTest.test p = false) ∧
    (cssTest.test p = true → scriptTest.test p = false ∧ imageTest.test p = false ∧
        fontTest.test p = false) ∧
    (imageTest.test p = true → scriptTest.test p = false ∧ cssTest.test p = false ∧
        fontTest.test p = false) ∧
    (fontTest.test p = true → scriptTest.test p = false ∧ cssTest.test p = false ∧
        imageTest.test p = false) := by
  have sc := script_css_disjoint p
  have si := script_image_disjoint p
  have sf := script_font_disjoint p
  have ci := css_image_disjoint p
  have cf := css_font_disjoint p
  have imf := image_font_disjoint p
  cases h1 : scriptTest.test p <;> cases h2 : cssTest.test p <;>
    cases h3 : imageTest.test p <;> cases h4 : fontTest.test p <;> simp_all

/-! ## The claims -/

/-- C1: the font rule (matcher `/\.(woff|woff2)$/`) should carry one of the asset module
types. The rule is the fourth one and its `type` is the string `asset/resourse`, which is
not among the asset module types, whereas `asset/resource` is. -/
theorem font_rule_type_not_asset_module_type (cwd d : List Char) :
    (config cwd d).module.rules[3]? = some fontRule ∧
      fontRule.type = some "asset/resourse" ∧
      "asset/resourse" ∉ assetModuleTypes ∧
      "asset/resource" ∈ assetModuleTypes := by
  refine ⟨rfl, rfl, ?_, ?_⟩ <;> decide

/-- C2: the configuration has exactly four module rules, in the order script, CSS,
image, font, and each `test` is a file-extension matcher: the script test accepts the paths
ending in `.js` or `.jsx`, the CSS test those ending in `.css` up to letter case, the image
test those ending in `.jpg` or `.png`, the font test those ending in `.woff` or `.woff2`. -/
theorem rules_are_extension_matchers (cwd d : List Char) :
    (config cwd d).module.rules = [scriptRule, cssRule, imageRule, fontRule] ∧
      (config cwd d).module.rules.length = 4 ∧
      ∀ p : List Char,
        (scriptRule.test.test p = true ↔ (".js".toList <:+ p ∨ ".jsx".toList <:+ p)) ∧
        (cssRule.test.test p = true ↔ EndsWithIgnoringCase ".css".toList p) ∧
        (imageRule.test.test p = true ↔ (".jpg".toList <:+ p ∨ ".png".toList <:+ p)) ∧
        (fontRule.test.test p = true ↔ (".woff".toList <:+ p ∨ ".woff2".toList <:+ p)) :=
  ⟨rfl, rfl, fun p => ⟨scriptTest_iff p, cssTest_iff p, imageTest_iff p, fontTest_iff p⟩⟩

/-- C3: the script rule has the chain `babel-loader`, `eslint-loader`, the CSS rule the
chain `style-loader`, `css-loader` with options `modules: true`, the image rule the single
loader `url-loader`; and for a path accepted by a rule (matched by its `test`, not
excluded) the loaders collected from the configuration are exactly the chain of that
rule. -/
theorem loader_chain_of_applying_rule (cwd d p : List Char) (r : Rule)
    (hr : r ∈ (config cwd d).module.rules) (hp : r.applies p = true) :
    scriptRule.use = Use.list [Loader.name "babel-loader", Loader.name "eslint-loader"] ∧
      cssRule.use = Use.list
        [Loader.name "style-loader", Loader.object "css-loader" (some [("modules", true)])] ∧
      imageRule.use = Use.single (Loader.object "url-loader" none) ∧
      loadersFor (config cwd d).module.rules p = r.use.chain := by
  refine ⟨rfl, rfl, rfl, ?_⟩
  obtain ⟨hs, hc, hi, hf⟩ := tests_exclusive p
  simp only [config, List.mem_cons, List.mem_singleton, List.not_mem_nil, or_false] at hr
  rcases hr with rfl | rfl | rfl | rfl
  · have ht : scriptTest.test p = true := by
      simp only [Rule.applies, scriptRule, Bool.and_eq_true] at hp
      exact hp.1
    obtain ⟨h2, h3, h4⟩ := hs ht
    simp only [loadersFor, config, List.filter, hp]
    simp [Rule.applies, cssRule, imageRule, fontRule, h2, h3, h4]
  · have ht : cssTest.test p = true := by
      simp only [Rule.applies, cssRule, Bool.and_eq_true] at hp
      exact hp.1
    obtain ⟨h2, h3, h4⟩ := hc ht
    simp only [loadersFor, config, List.filter, hp]
    simp [Rule.applies, scriptRule, imageRule, fontRule, h2, h3, h4]
  · have ht : imageTest.test p = true := by
      simp only [Rule.applies, imageRule, Bool.and_eq_true] at hp
      exact hp.1
    obtain ⟨h2, h3, h4⟩ := hi ht
    simp only [loadersFor, config, List.filter, hp]
    simp [Rule.applies, scriptRule, cssRule, fontRule, h2, h3, h4]
  · have ht : fontTest.test p = true := by
      simp only [Rule.applies, fontRule, Bool.and_eq_true] at hp
      exact hp.1
    obtain ⟨h2, h3, h4⟩ := hf ht
    simp only [loadersFor, config, List.filter, hp]
    simp [Rule.applies, scriptRule, cssRule, imageRule, h2, h3, h4]

theorem loader_chain_of_applying_rule_witness :
    scriptRule ∈ (config [] "/app".toList).module.rules ∧
      scriptRule.applies "/app/src/index.jsx".toList = true ∧
      loadersFor (config [] "/app".toList).module.rules "/app/src/index.jsx".toList =
        [Loader.name "babel-loader", Loader.name "eslint-loader"] :=
  ⟨List.mem_cons_self _ _, by decide,
    (loader_chain_of_applying_rule [] "/app".toList "/app/src/index.jsx".toList scriptRule
      (List.mem_cons_self _ _) (by decide)).2.2.2⟩

/-- C4: for an absolute configuration directory, the entry is one path, the directory
joined with `src/index.jsx`, and the `test` of the script rule accepts it. -/
theorem entry_is_script_module (cwd d : List Char) (hd : isAbsolute d = true) :
    (config cwd d).entry = join [d, "src/index.jsx".toList] ∧
      (config cwd d).module.rules.head? = some scriptRule ∧
      scriptRule.test.test (config cwd d).entry = true := by
  have hres : (config cwd d).entry =
      '/' :: joinSegments ((keptSegments d).reverse ++ ["src".toList, "index.jsx".toList]) := by
    have h := resolve_absolute cwd d "./src/index.jsx".toList hd (by decide) (by decide)
    have h2 := normalizeString_dot_index_slash d
    simp only [config]
    rw [h, ← h2]
    rfl
  have hsuf : "index.jsx".toList <:+
      joinSegments ((keptSegments d).reverse ++ ["src".toList, "index.jsx".toList]) := by
    have := suffix_joinSegments_append_singleton ((keptSegments d).reverse ++ ["src".toList])
      "index.jsx".toList
    simpa using this
  refine ⟨?_, rfl, ?_⟩
  · rw [hres]
    have hn := normalizeString_index d
    have hj := join_absolute d "src/index.jsx".toList hd (by decide) (by decide) (by
      rw [show d ++ '/' :: "src/index.jsx".toList = d ++ "/src/index.jsx".toList from rfl, hn]
      intro h0
      rw [h0] at hsuf
      exact absurd (List.suffix_nil.mp hsuf) (by decide))
    rw [hj, ← hn]
    rfl
  · rw [hres]
    refine (scriptTest_iff _).mpr (Or.inr ?_)
    have h1 : ".jsx".toList <:+ "index.jsx".toList := ⟨"index".toList, rfl⟩
    exact (h1.trans hsuf).trans (List.suffix_cons _ _)

theorem entry_is_script_module_witness :
    isAbsolute "/app".toList = true ∧
      (config [] "/app".toList).entry = join ["/app".toList, "src/index.jsx".toList] ∧
      (config [] "/app".toList).module.rules.head? = some scriptRule ∧
      scriptRule.test.test (config [] "/app".toList).entry = true :=
  ⟨by decide, entry_is_script_module [] "/app".toList (by decide)⟩

/-- C5: the dev server compresses, listens on port 3001, a valid TCP port, and for an
absolute configuration directory its static root is that directory joined with `dist`. -/
theorem devServer_settings (cwd d : List Char) (hd : isAbsolute d = true) :
    (config cwd d).devServer.compress = true ∧
      (config cwd d).devServer.port = 3001 ∧
      0 < (config cwd d).devServer.port ∧ (config cwd d).devServer.port < 65536 ∧
      (config cwd d).devServer.static = join [d, "dist".toList] := by
  refine ⟨rfl, rfl, by simp [config], by simp [config], ?_⟩
  have hne : joinSegments ((keptSegments d).reverse ++ ["dist".toList]) ≠ [] :=
    joinSegments_append_singleton_ne_nil _ _ (by decide)
  have h1 := join_absolute d "./dist".toList hd (by decide) (by decide) (by
    rw [show d ++ '/' :: "./dist".toList = d ++ "/./dist".toList from rfl,
      normalizeString_dot_dist]
    exact hne)
  have h2 := join_absolute d "dist".toList hd (by decide) (by decide) (by
    rw [show d ++ '/' :: "dist".toList = d ++ "/dist".toList from rfl, normalizeString_dist]
    exact hne)
  simp only [config]
  rw [h1, h2]
  rw [show d ++ '/' :: "./dist".toList = d ++ "/./dist".toList from rfl,
    show d ++ '/' :: "dist".toList = d ++ "/dist".toList from rfl,
    normalizeString_dot_dist, normalizeString_dist]

theorem devServer_settings_witness :
    isAbsolute "/app".toList = true ∧
      (config [] "/app".toList).devServer.compress = true ∧
      (config [] "/app".toList).devServer.port = 3001 ∧
      0 < (config [] "/app".toList).devServer.port ∧
      (config [] "/app".toList).devServer.port < 65536 ∧
      (config [] "/app".toList).devServer.static = join ["/app".toList, "dist".toList] :=
  ⟨by decide, devServer_settings [] "/app".toList (by decide)⟩

/-- C6: the resolvable extensions are the three-element list `*`, `.js`, `.jsx` in this
order, so a request without extension is tried with `.js` before `.jsx`. -/
theorem resolve_extensions_order (cwd d : List Char) :
    (config cwd d).resolve.extensions = ["*", ".js", ".jsx"] ∧
      (config cwd d).resolve.extensions.length = 3 ∧
      ∀ request : String,
        resolveCandidates (config cwd d).resolve.extensions request =
          [request ++ "*", request ++ ".js", request ++ ".jsx"] :=
  ⟨rfl, rfl, fun _ => rfl⟩

/-- C7: the plugin list holds exactly one plugin, the linting plugin with extensions
`.js`, `.jsx`, and a path ends with one of these extensions exactly when the `test` of the
script rule accepts it. -/
theorem lint_plugin_scope (cwd d : List Char) :
    ∃ plugin, (config cwd d).plugins = [plugin] ∧
      plugin.ctor = "ESLintPlugin" ∧
      plugin.extensions = [".js", ".jsx"] ∧
      (config cwd d).module.rules.head? = some scriptRule ∧
      ∀ p : List Char,
        (∃ e, e ∈ plugin.extensions ∧ e.toList <:+ p) ↔ scriptRule.test.test p = true := by
  refine ⟨_, rfl, rfl, rfl, rfl, fun p => ?_⟩
  rw [show scriptRule.test = scriptTest from rfl, scriptTest_iff]
  simp

/-- C8: the script rule and the CSS rule apply to a path exactly when their `test`
accepts it and the path does not contain `node_modules` anywhere, so that
`src/node_modules_helper.js` is excluded as well; the image and font rules have no
exclusion and apply to every path their `test` accepts, also under `node_modules`. -/
theorem exclusion_of_dependencies (cwd d : List Char) :
    (config cwd d).module.rules = [scriptRule, cssRule, imageRule, fontRule] ∧
      (∀ p : List Char,
        (scriptRule.applies p = true ↔
          (scriptRule.test.test p = true ∧ ¬ "node_modules".toList <:+: p)) ∧
        (cssRule.applies p = true ↔
          (cssRule.test.test p = true ∧ ¬ "node_modules".toList <:+: p)) ∧
        (imageRule.applies p = true ↔ imageRule.test.test p = true) ∧
        (fontRule.applies p = true ↔ fontRule.test.test p = true)) ∧
      scriptRule.test.test "src/node_modules_helper.js".toList = true ∧
      scriptRule.applies "src/node_modules_helper.js".toList = false ∧
      imageRule.exclude = none ∧ fontRule.exclude = none ∧
      imageRule.applies "/app/node_modules/pkg/logo.png".toList = true ∧
      fontRule.applies "/app/node_modules/pkg/text.woff2".toList = true := by
  refine ⟨rfl, fun p => ⟨?_, ?_, ?_, ?_⟩, by decide, by decide, rfl, rfl, by decide,
    by decide⟩
  · show (scriptTest.test p && !(nodeModules.test p)) = true ↔ _
    rw [← nodeModules_iff]
    simp [scriptRule]
  · show (cssTest.test p && !(nodeModules.test p)) = true ↔ _
    rw [← nodeModules_iff]
    simp [cssRule]
  · simp [Rule.applies, imageRule]
  · simp [Rule.applies, fontRule]

/-- C9: the four matchers are pairwise disjoint: for every path at most one rule of the
configuration has a `test` that accepts it, hence at most one rule applies to it. -/
theorem matchers_pairwise_disjoint (cwd d p : List Char) :
    ((config cwd d).module.rules.filter (fun r => r.test.test p)).length ≤ 1 ∧
      ((config cwd d).module.rules.filter (fun r => r.applies p)).length ≤ 1 ∧
      ¬ (scriptTest.test p = true ∧ cssTest.test p = true) ∧
      ¬ (scriptTest.test p = true ∧ imageTest.test p = true) ∧
      ¬ (scriptTest.test p = true ∧ fontTest.test p = true) ∧
      ¬ (cssTest.test p = true ∧ imageTest.test p = true) ∧
      ¬ (cssTest.test p = true ∧ fontTest.test p = true) ∧
      ¬ (imageTest.test p = true ∧ fontTest.test p = true) := by
  obtain ⟨hs, hc, hi, hf⟩ := tests_exclusive p
  simp only [config, List.filter, Rule.applies, scriptRule, cssRule, imageRule, fontRule]
  cases h1 : scriptTest.test p <;> cases h2 : cssTest.test p <;>
    cases h3 : imageTest.test p <;> cases h4 : fontTest.test p <;>
    simp_all <;> split <;> simp

/-- C10: for an absolute configuration directory, the directory the bundle is written to
(`output.path`, computed by `path.resolve`) is the directory the dev server serves
(`devServer.static`, computed by `path.join`), and the bundle file is `bundle.js`. -/
theorem devServer_serves_output (cwd d : List Char) (hd : isAbsolute d = true) :
    (config cwd d).output.path = (config cwd d).devServer.static ∧
      (config cwd d).output.filename = "bundle.js" := by
  refine ⟨?_, rfl⟩
  have hne : joinSegments ((keptSegments d).reverse ++ ["dist".toList]) ≠ [] :=
    joinSegments_append_singleton_ne_nil _ _ (by decide)
  have h1 := join_absolute d "./dist".toList hd (by decide) (by decide) (by
    rw [show d ++ '/' :: "./dist".toList = d ++ "/./dist".toList from rfl,
      normalizeString_dot_dist]
    exact hne)
  have h2 := resolve_absolute cwd d "./dist".toList hd (by decide) (by decide)
  simp only [config]
  rw [h1, h2]
  rw [show d ++ '/' :: "./dist".toList = d ++ "/./dist".toList from rfl,
    show d ++ '/' :: ("./dist".toList ++ ['/']) = d ++ "/./dist/".toList from rfl,
    normalizeString_dot_dist, normalizeString_dist_slash]

theorem devServer_serves_output_witness :
    isAbsolute "/app".toList = true ∧
      (config [] "/app".toList).output.path = (config [] "/app".toList).devServer.static ∧
      (config [] "/app".toList).output.filename = "bundle.js" :=
  ⟨by decide, devServer_serves_output [] "/app".toList (by decide)⟩

end WebpackConfig
